import Mathlib

/-!
Verification of the clause- and unit-literal-sharing layer of a portfolio SAT
solver (src/sat/sat_parallel.cpp): the broadcast ring buffer
(`parallel::vector_pool`), the unit exchange log, the share heuristic and the
solver-clone initialization.
-/

namespace SatParallel

/-- Ring buffer state, embedding `parallel::vector_pool`.  `vectors` models
`m_vectors` as a total map from index to stored word: the C++ vector only ever
grows, via `m_vectors.reserve(m_size + capacity, 0)` in `begin_add_vector`,
which zero-fills new space, so every read the code performs sees either a
previously written word or the `0` fill, exactly as the total map does.
`heads` and `at_end` model `m_heads` / `m_at_end`, arrays of length
`num_consumers` (entries at indexes `≥ num_consumers` are phantom and never
touched by the loops, which iterate over `i < m_heads.size()`). -/
structure VectorPool where
  vectors : Nat → Nat
  num_consumers : Nat
  heads : Nat → Nat
  at_end : Nat → Bool
  tail : Nat
  size : Nat

/-- Modelled from the spec: accessor `get_owner` of `vector_pool` is declared
in sat_parallel.h (not under src/); per the spec a record is a 2-word header
`(owner, len)` followed by `len` payload words, and `begin_add_vector` indeed
writes the owner word first at the record position. -/
def get_ownerF (v : Nat → Nat) (pos : Nat) : Nat := v pos

/-- Modelled from the spec: accessor `get_length` of `vector_pool`
(sat_parallel.h): the length is the second header word, as written by
`begin_add_vector`. -/
def get_lengthF (v : Nat → Nat) (pos : Nat) : Nat := v (pos + 1)

/-- Modelled from the spec: `get_ptr` (sat_parallel.h) yields the payload, the
`len` words that follow the 2-word header; we read it out as a list. -/
def readPayload (v : Nat → Nat) (pos n : Nat) : List Nat :=
  (List.range n).map (fun i => v (pos + 2 + i))

/-- `vector_pool::next`: advance an index over one record,
`n = index + 2 + get_length(index)`, wrapping to `0` when `n >= m_size`. -/
def nextF (v : Nat → Nat) (s : Nat) (index : Nat) : Nat :=
  let n := index + 2 + get_lengthF v index
  if s ≤ n then 0 else n

/-- `vector_pool::reserve(num_threads, sz)`: fresh zeroed buffer, all read
cursors `0`, all at-end flags `true`, write cursor `0`. -/
def reserve (num_threads sz : Nat) : VectorPool :=
  { vectors := fun _ => 0
    num_consumers := num_threads
    heads := fun _ => 0
    at_end := fun _ => true
    tail := 0
    size := sz }

/-- The head-eviction loop of `begin_add_vector`:
`while (m_tail < m_heads[i] && m_heads[i] < m_tail + capacity) next(m_heads[i]);`
with `next` inlined.  When `next` wraps the head to `0` the loop guard
`tail < 0` is false, so the loop exits with head `0`. -/
def evict (v : Nat → Nat) (s tail cap : Nat) (h : Nat) : Nat :=
  if hc : tail < h ∧ h < tail + cap then
    if s ≤ h + 2 + get_lengthF v h then 0
    else evict v s tail cap (h + 2 + get_lengthF v h)
  else h
termination_by tail + cap - h
decreasing_by omega

/-- `vector_pool::begin_add_vector(owner, n)`: evict every consumer cursor
strictly inside `(m_tail, m_tail + n + 2)`, clear every at-end flag, then write
the header words `owner` and `n` at `m_tail`, `m_tail + 1`, advancing the tail
by 2. -/
def begin_add_vector (p : VectorPool) (owner n : Nat) : VectorPool :=
  let capacity := n + 2
  { p with
    heads := fun i =>
      if i < p.num_consumers then evict p.vectors p.size p.tail capacity (p.heads i)
      else p.heads i
    at_end := fun i => if i < p.num_consumers then false else p.at_end i
    vectors := fun j =>
      if j = p.tail then owner else if j = p.tail + 1 then n else p.vectors j
    tail := p.tail + 2 }

/-- `vector_pool::add_vector_elem(e)`: `m_vectors[m_tail++] = e`. -/
def add_vector_elem (p : VectorPool) (e : Nat) : VectorPool :=
  { p with
    vectors := fun j => if j = p.tail then e else p.vectors j
    tail := p.tail + 1 }

/-- `vector_pool::end_add_vector()`: `if (m_tail >= m_size) m_tail = 0;`. -/
def end_add_vector (p : VectorPool) : VectorPool :=
  if p.size ≤ p.tail then { p with tail := 0 } else p

/-- One complete producer-protocol write: `begin_add_vector(owner, n)`, then
`n` calls of `add_vector_elem`, then `end_add_vector`. -/
def write (p : VectorPool) (owner : Nat) (es : List Nat) : VectorPool :=
  end_add_vector (es.foldl add_vector_elem (begin_add_vector p owner es.length))

/-- The loop of `vector_pool::get_vector`, with explicit fuel: it runs while
`head != m_tail || !m_at_end[owner]`; each iteration advances the cursor over
one record, sets the at-end flag to `new head = m_tail`, and returns the
record at the old head unless it is self-owned.  `none` models fuel
exhaustion (the loop still running); `some (h, ae, none)` models the loop
exiting with return value `false`; `some (h, ae, some (n, payload))` models
returning record `(n, payload)` with final cursor `h` and flag `ae`. -/
def getVecLoop (v : Nat → Nat) (s tail owner : Nat) :
    Nat → Nat → Bool → Option (Nat × Bool × Option (Nat × List Nat))
  | 0, _, _ => none
  | fuel + 1, head, atEnd =>
    if head = tail ∧ atEnd = true then some (head, atEnd, none)
    else
      let head' := nextF v s head
      let atEnd' := decide (head' = tail)
      if owner = get_ownerF v head then getVecLoop v s tail owner fuel head' atEnd'
      else some (head', atEnd', some (get_lengthF v head, readPayload v head (get_lengthF v head)))

/-- `vector_pool::get_vector(owner, n, ptr)`: runs the loop from the consumer's
cursor and flag, with fuel `size + 3` (shown sufficient for every reachable
state in the termination theorem), and stores the final cursor and flag back
into the pool. -/
def get_vector (p : VectorPool) (owner : Nat) :
    Option (VectorPool × Option (Nat × List Nat)) :=
  (getVecLoop p.vectors p.size p.tail owner (p.size + 3) (p.heads owner) (p.at_end owner)).map
    (fun r =>
      ({ p with
          heads := fun i => if i = owner then r.1 else p.heads i
          at_end := fun i => if i = owner then r.2.1 else p.at_end i },
       r.2.2))

/-- The pool state after a `get_vector` call (identity in the fuel-exhaustion
case, which the termination theorem rules out for reachable states). -/
def applyGet (p : VectorPool) (owner : Nat) : VectorPool :=
  match get_vector p owner with
  | some r => r.1
  | none => p

/-- Pool states reachable through the public protocol: a `reserve` with
positive capacity followed by any interleaving of complete producer-protocol
writes and `get_vector` calls. -/
inductive Reached : VectorPool → Prop
  | init (c s : Nat) (hs : 0 < s) : Reached (reserve c s)
  | step_write (p : VectorPool) (o : Nat) (es : List Nat) :
      Reached p → Reached (write p o es)
  | step_get (p : VectorPool) (c : Nat) : Reached p → Reached (applyGet p c)

/-- Increasing record chain: `Chain v s a b` says the cursor walks from `a`
to `b` by whole records (`nextF`), never wrapping. -/
inductive Chain (v : Nat → Nat) (s : Nat) : Nat → Nat → Prop
  | refl (a : Nat) : Chain v s a a
  | step (a b c : Nat) : nextF v s a = b → a < b → Chain v s b c → Chain v s a c

/-- Structural invariant of reachable pools: positive capacity, in-range write
cursor reachable from `0` by whole records, in-range read cursors. -/
structure GoodPool (p : VectorPool) : Prop where
  hpos : 0 < p.size
  htail : p.tail < p.size
  hchain : Chain p.vectors p.size 0 p.tail
  hheads : ∀ i, p.heads i < p.size

/-- What `get_vector`'s loop guarantees about a completed run: any returned
record sits at the first non-self-owned position on the cursor's record walk,
`false` is returned exactly at the write cursor, and the final at-end flag
mirrors `final cursor = write cursor`. -/
def SkipSpec (v : Nat → Nat) (s tail owner h h' : Nat) (ae' : Bool)
    (res : Option (Nat × List Nat)) : Prop :=
  (∀ n pay, res = some (n, pay) →
    ∃ k, (∀ j, j < k → get_ownerF v ((nextF v s)^[j] h) = owner) ∧
      get_ownerF v ((nextF v s)^[k] h) ≠ owner ∧
      n = get_lengthF v ((nextF v s)^[k] h) ∧
      pay = readPayload v ((nextF v s)^[k] h) n ∧
      h' = nextF v s ((nextF v s)^[k] h)) ∧
  (res = none → h' = tail) ∧
  (ae' = true ↔ h' = tail)

/-- State of the unit exchange log: `m_units` (ordered, append-only global
log) and `m_unit_set` (the set of literal identifiers already logged; modelled
as the list of inserted identifiers, queried by membership).  A literal is
identified with its integer index encoding, the only thing this subsystem
stores or moves (spec Data Model). -/
structure ExchangeState where
  m_units : List Nat
  m_unit_set : List Nat

/-- The per-literal fold step of `parallel::exchange`: skip a literal whose
index is already in `m_unit_set`, otherwise insert it and push it onto
`m_units`. -/
def exchange_push (st : ExchangeState) (lit : Nat) : ExchangeState :=
  if st.m_unit_set.contains lit then st
  else { m_units := st.m_units ++ [lit], m_unit_set := lit :: st.m_unit_set }

/-- The critical-section body of `parallel::exchange`: first copy out every
logged literal at position `≥ limit` (in log order), then fold `in` into the
log with dedup, then set the caller's limit to the new log length.  Returns
(new state, new limit, words appended to `out`). -/
def exchange_body (st : ExchangeState) (lin : List Nat) (limit : Nat) :
    ExchangeState × Nat × List Nat :=
  let out := st.m_units.drop limit
  let st' := lin.foldl exchange_push st
  (st', st'.m_units.length, out)

/-- `parallel::exchange`, including the reentrancy guard
`if (s.m_par_syncing_clauses) return;`: a call with the guard set is a no-op. -/
def exchange (syncing : Bool) (st : ExchangeState) (lin : List Nat) (limit : Nat) :
    ExchangeState × Nat × List Nat :=
  if syncing then (st, limit, []) else exchange_body st lin limit

/-- The global log state after a sequence of executed `exchange` calls
(each call given by its `in` vector and its caller-held limit), starting from
the empty log. -/
def exchange_run (calls : List (List Nat × Nat)) : ExchangeState :=
  calls.foldl (fun st c => (exchange_body st c.1 c.2).1) ⟨[], []⟩

/-- Modelled from the spec: of the external clause representation
(sat_clause.h, not under src/) only the size and the glue score are read by
the share heuristic. -/
structure Clause where
  size : Nat
  glue : Nat

/-- `parallel::enable_add` (the share heuristic):
`(c.size() <= 40 && c.glue() <= 8) || c.glue() <= 2`. -/
def enable_add (c : Clause) : Bool :=
  (decide (c.size ≤ 40) && decide (c.glue ≤ 8)) || decide (c.glue ≤ 2)

/-- Modelled from the spec: the slice of the external solver's parameter
surface that `init_solvers` touches — the search-phase symbol (read with
default `"caching"`) and the random-seed option.  `none` models an option
never set. -/
structure Params where
  phase : Option String
  random_seed : Option Nat

/-- The configuration snapshot a clone is constructed from, plus the id it is
registered under via `set_par(this, i)`. -/
structure CloneInfo where
  params : Params
  id : Nat

/-- Modelled from the spec: the master solver's state as used by
`init_solvers` — its parameters, its random-number stream position (each
`s.m_rand()` call consumes one value of the ambient stream), and its
registered participant id. -/
structure Master where
  params : Params
  rngIdx : Nat
  par_id : Option Nat

/-- The clone-allocation loop of `parallel::init_solvers`: for clone `i`,
set `random_seed` on the master's params to the next random value, set the
phase to `"random"` when `i = 1 + num_threads / 2` with
`num_threads = k + 1`, then snapshot the params for the clone.  Returns the
master's params and stream position after the loop and the clone list. -/
def initClones (rng : Nat → Nat) (k : Nat) :
    Nat → Nat → Params → Nat → Params × Nat × List CloneInfo
  | 0, _, ps, idx => (ps, idx, [])
  | r + 1, i, ps, idx =>
    let ps1 : Params := { ps with random_seed := some (rng idx) }
    let ps2 : Params := if i = 1 + (k + 1) / 2 then { ps1 with phase := some "random" } else ps1
    let rest := initClones rng k r (i + 1) ps2 (idx + 1)
    (rest.1, rest.2.1, { params := ps2, id := i } :: rest.2.2)

/-- `parallel::init_solvers(s, k)`: save the effective phase
(`get_sym("phase", "caching")`), run the clone loop for `i = 0 .. k-1`,
register the master as participant `k`, and restore the phase symbol to the
saved value.  Returns the master's final state and the clone list. -/
def init_solvers (rng : Nat → Nat) (m : Master) (k : Nat) : Master × List CloneInfo :=
  let saved_phase := m.params.phase.getD "caching"
  let r := initClones rng k k 0 m.params m.rngIdx
  ({ params := { r.1 with phase := some saved_phase }
     rngIdx := r.2.1
     par_id := some k },
   r.2.2)

/-- Scenario C, first write: `reserve(2,10)` then an 8-word record (payload
length 6) from owner `1`, occupying `[0, 8)`, leaving the write cursor at 8. -/
def poolA : VectorPool := write (reserve 2 10) 1 [11, 12, 13, 14, 15, 16]

/-- Scenario C, second write: a record of payload length 2 from owner `1`;
its 4 words land at `[8, 12)` — the last two words beyond the buffer end
(size 10) — and the write cursor then resets to `0`. -/
def poolB : VectorPool := write poolA 1 [17, 18]

/-! ### Helper lemmas about the ring buffer -/

lemma evict_not_moved (v : Nat → Nat) (s tail cap h : Nat)
    (hc : ¬ (tail < h ∧ h < tail + cap)) : evict v s tail cap h = h := by
  rw [evict, dif_neg hc]

lemma evict_wrap (v : Nat → Nat) (s tail cap h : Nat)
    (hc : tail < h ∧ h < tail + cap) (hw : s ≤ h + 2 + get_lengthF v h) :
    evict v s tail cap h = 0 := by
  rw [evict, dif_pos hc, if_pos hw]

lemma evict_step (v : Nat → Nat) (s tail cap h : Nat)
    (hc : tail < h ∧ h < tail + cap) (hw : ¬ s ≤ h + 2 + get_lengthF v h) :
    evict v s tail cap h = evict v s tail cap (h + 2 + get_lengthF v h) := by
  rw [evict, dif_pos hc, if_neg hw]

/-- The eviction loop exits only with a cursor outside the open span
`(tail, tail + cap)`. -/
lemma evict_not_in_span (v : Nat → Nat) (s tail cap h : Nat) :
    ¬ (tail < evict v s tail cap h ∧ evict v s tail cap h < tail + cap) := by
  induction h using evict.induct v s tail cap with
  | case1 x hc hw => rw [evict_wrap v s tail cap x hc hw]; omega
  | case2 x hc hw ih => rw [evict_step v s tail cap x hc hw]; exact ih
  | case3 x hc => rw [evict_not_moved v s tail cap x hc]; exact hc

/-- Eviction keeps cursors inside the buffer. -/
lemma evict_lt (v : Nat → Nat) (s tail cap : Nat) (hs : 0 < s) (h : Nat) (hh : h < s) :
    evict v s tail cap h < s := by
  induction h using evict.induct v s tail cap with
  | case1 x hc hw => rw [evict_wrap v s tail cap x hc hw]; exact hs
  | case2 x hc hw ih => rw [evict_step v s tail cap x hc hw]; exact ih (by omega)
  | case3 x hc => rw [evict_not_moved v s tail cap x hc]; exact hh

lemma end_add_vector_vectors (p : VectorPool) : (end_add_vector p).vectors = p.vectors := by
  unfold end_add_vector; split <;> rfl

lemma end_add_vector_heads (p : VectorPool) : (end_add_vector p).heads = p.heads := by
  unfold end_add_vector; split <;> rfl

lemma end_add_vector_at_end (p : VectorPool) : (end_add_vector p).at_end = p.at_end := by
  unfold end_add_vector; split <;> rfl

lemma end_add_vector_size (p : VectorPool) : (end_add_vector p).size = p.size := by
  unfold end_add_vector; split <;> rfl

lemma end_add_vector_num (p : VectorPool) :
    (end_add_vector p).num_consumers = p.num_consumers := by
  unfold end_add_vector; split <;> rfl

lemma end_add_vector_tail (p : VectorPool) :
    (end_add_vector p).tail = if p.size ≤ p.tail then 0 else p.tail := by
  unfold end_add_vector; split <;> simp_all

/-- Effect of the `n` payload writes `add_vector_elem e1 .. en`: the tail
advances by `n`, the payload words land at `tail, tail+1, ..`, everything
below the starting tail (and all other components) is unchanged. -/
lemma addElems_spec (es : List Nat) (p : VectorPool) :
    (es.foldl add_vector_elem p).tail = p.tail + es.length ∧
    (es.foldl add_vector_elem p).size = p.size ∧
    (es.foldl add_vector_elem p).num_consumers = p.num_consumers ∧
    (es.foldl add_vector_elem p).heads = p.heads ∧
    (es.foldl add_vector_elem p).at_end = p.at_end ∧
    (∀ j, j < p.tail → (es.foldl add_vector_elem p).vectors j = p.vectors j) ∧
    (∀ i, i < es.length → (es.foldl add_vector_elem p).vectors (p.tail + i) = es.getD i 0) := by
  induction es generalizing p with
  | nil => simp
  | cons e t ih =>
    obtain ⟨h1, h2, h3, h4, h5, h6, h7⟩ := ih (add_vector_elem p e)
    simp only [List.foldl_cons]
    have htl : (add_vector_elem p e).tail = p.tail + 1 := rfl
    refine ⟨?_, h2, h3, h4, h5, ?_, ?_⟩
    · rw [h1, htl]; simp [List.length_cons]; omega
    · intro j hj
      rw [h6 j (by omega)]
      show (if j = p.tail then e else p.vectors j) = p.vectors j
      rw [if_neg (by omega)]
    · intro i hi
      match i with
      | 0 =>
        rw [show p.tail + 0 = p.tail by omega, h6 p.tail (by omega)]
        show (if p.tail = p.tail then e else p.vectors p.tail) = (e :: t).getD 0 0
        rw [if_pos rfl]; rfl
      | Nat.succ i' =>
        have := h7 i' (by simpa using hi)
        rw [htl] at this
        rw [show p.tail + (i' + 1) = p.tail + 1 + i' by omega, this]
        rfl

/-- Full effect of one complete producer-protocol write: cursors are evicted
out of the open span, all at-end flags clear, the record `(owner, n, payload)`
is laid down contiguously starting at the old tail, words below the old tail
are untouched, and the tail resets to `0` (after the record is written)
exactly when the record's end reaches or passes the buffer end. -/
lemma write_spec (p : VectorPool) (owner : Nat) (es : List Nat) :
    (write p owner es).size = p.size ∧
    (write p owner es).num_consumers = p.num_consumers ∧
    (write p owner es).tail =
      (if p.size ≤ p.tail + 2 + es.length then 0 else p.tail + 2 + es.length) ∧
    (write p owner es).heads = (fun i =>
      if i < p.num_consumers then evict p.vectors p.size p.tail (es.length + 2) (p.heads i)
      else p.heads i) ∧
    (write p owner es).at_end = (fun i => if i < p.num_consumers then false else p.at_end i) ∧
    (write p owner es).vectors p.tail = owner ∧
    (write p owner es).vectors (p.tail + 1) = es.length ∧
    (∀ i, i < es.length → (write p owner es).vectors (p.tail + 2 + i) = es.getD i 0) ∧
    (∀ j, j < p.tail → (write p owner es).vectors j = p.vectors j) := by
  obtain ⟨h1, h2, h3, h4, h5, h6, h7⟩ := addElems_spec es (begin_add_vector p owner es.length)
  have hbt : (begin_add_vector p owner es.length).tail = p.tail + 2 := rfl
  have hbs : (begin_add_vector p owner es.length).size = p.size := rfl
  unfold write
  rw [end_add_vector_size, end_add_vector_num, end_add_vector_tail, end_add_vector_heads,
    end_add_vector_at_end, end_add_vector_vectors]
  rw [h1, h2, h3, h4, h5, hbt, hbs]
  refine ⟨rfl, rfl, rfl, rfl, rfl, ?_, ?_, ?_, ?_⟩
  · rw [h6 p.tail (by omega)]
    show (if p.tail = p.tail then owner else _) = owner
    rw [if_pos rfl]
  · rw [h6 (p.tail + 1) (by omega)]
    show (if p.tail + 1 = p.tail then owner
      else if p.tail + 1 = p.tail + 1 then es.length else p.vectors (p.tail + 1)) = es.length
    rw [if_neg (by omega), if_pos rfl]
  · intro i hi
    have := h7 i hi
    rw [hbt] at this
    rw [show p.tail + 2 + i = p.tail + 2 + i by rfl]
    rw [show (p.tail + 2 + i) = (p.tail + 2) + i by omega, this]
  · intro j hj
    rw [h6 j (by omega)]
    show (if j = p.tail then owner
      else if j = p.tail + 1 then es.length else p.vectors j) = p.vectors j
    rw [if_neg (by omega), if_neg (by omega)]

/-! ### The record-chain invariant and its preservation -/

lemma nextF_lt (v : Nat → Nat) (s : Nat) (hs : 0 < s) (h : Nat) : nextF v s h < s := by
  simp only [nextF]
  split
  · exact hs
  · omega

/-- A non-wrapping `nextF` step is a real advance of at least 2 words. -/
lemma nextF_pos_elim (v : Nat → Nat) (s a b : Nat) (hab : nextF v s a = b) (hb : a < b) :
    ¬ s ≤ a + 2 + get_lengthF v a ∧ b = a + 2 + get_lengthF v a := by
  simp only [nextF] at hab
  split at hab
  · omega
  · exact ⟨by assumption, hab.symm⟩

lemma chain_le (v : Nat → Nat) (s a b : Nat) (h : Chain v s a b) : a ≤ b := by
  induction h with
  | refl a => exact Nat.le_refl a
  | step a b c _ hlt _ ih => omega

lemma chain_trans (v : Nat → Nat) (s a b c : Nat)
    (h1 : Chain v s a b) (h2 : Chain v s b c) : Chain v s a c := by
  induction h1 with
  | refl a => exact h2
  | step a x y hn hlt _ ih => exact Chain.step a x c hn hlt (ih h2)

/-- A chain below `t` only reads buffer words below `t`, so it survives any
rewrite of the buffer at positions `≥ t`. -/
lemma chain_agree (v v' : Nat → Nat) (s a t : Nat)
    (hch : Chain v s a t) : (∀ j, j < t → v' j = v j) → Chain v' s a t := by
  induction hch with
  | refl a => exact fun _ => Chain.refl a
  | step a b c hn hlt hbc ih =>
    intro hag
    have hbt : b ≤ c := chain_le v s b c hbc
    obtain ⟨hnw, hbval⟩ := nextF_pos_elim v s a b hn hlt
    have ha1 : a + 1 < c := by omega
    have hlen : get_lengthF v' a = get_lengthF v a := by
      unfold get_lengthF; exact hag (a + 1) ha1
    refine Chain.step a b c ?_ hlt (ih hag)
    simp only [nextF]
    rw [hlen, if_neg hnw]
    omega

lemma chain_snoc (v : Nat → Nat) (s a b c : Nat)
    (h1 : Chain v s a b) (hn : nextF v s b = c) (hlt : b < c) : Chain v s a c :=
  chain_trans v s a b c h1 (Chain.step b c c hn hlt (Chain.refl c))

/-- A complete write preserves the chain invariant: the old chain `0 → tail`
survives (it reads only below the old tail), and the new tail is either `0`
(wrap) or one record step beyond the old tail. -/
lemma chain_write (p : VectorPool) (o : Nat) (es : List Nat)
    (hch : Chain p.vectors p.size 0 p.tail) :
    Chain (write p o es).vectors (write p o es).size 0 (write p o es).tail := by
  obtain ⟨hsize, _, htail, _, _, hown, hlen, _, hbelow⟩ := write_spec p o es
  rw [hsize, htail]
  by_cases hw : p.size ≤ p.tail + 2 + es.length
  · rw [if_pos hw]; exact Chain.refl 0
  · rw [if_neg hw]
    have hold : Chain (write p o es).vectors p.size 0 p.tail :=
      chain_agree p.vectors (write p o es).vectors p.size 0 p.tail hch hbelow
    refine chain_snoc _ _ _ _ _ hold ?_ (by omega)
    unfold nextF get_lengthF
    rw [hlen, if_neg hw]

lemma good_write (p : VectorPool) (o : Nat) (es : List Nat) (hg : GoodPool p) :
    GoodPool (write p o es) := by
  obtain ⟨hsize, _, htail, hheads, _, _, _, _, _⟩ := write_spec p o es
  refine ⟨by rw [hsize]; exact hg.hpos, ?_, chain_write p o es hg.hchain, ?_⟩
  · rw [hsize, htail]
    split
    · exact hg.hpos
    · omega
  · intro i
    rw [hsize, hheads]
    dsimp only
    split
    · exact evict_lt p.vectors p.size p.tail (es.length + 2) hg.hpos (p.heads i) (hg.hheads i)
    · exact hg.hheads i

/-- The `get_vector` loop only ever leaves the cursor at an in-range position. -/
lemma getVecLoop_head_lt (v : Nat → Nat) (s tail owner : Nat) (hs : 0 < s) :
    ∀ fuel h ae r, h < s → getVecLoop v s tail owner fuel h ae = some r → r.1 < s := by
  intro fuel
  induction fuel with
  | zero => intro h ae r _ hr; simp [getVecLoop] at hr
  | succ fuel ih =>
    intro h ae r hh hr
    rw [getVecLoop] at hr
    split at hr
    · cases hr; exact hh
    · split at hr
      · exact ih _ _ _ (nextF_lt v s hs h) hr
      · cases hr; exact nextF_lt v s hs h

lemma good_applyGet (p : VectorPool) (c : Nat) (hg : GoodPool p) :
    GoodPool (applyGet p c) := by
  unfold applyGet
  cases hgv : get_vector p c with
  | none => exact hg
  | some r =>
    unfold get_vector at hgv
    rw [Option.map_eq_some'] at hgv
    obtain ⟨a, ha, har⟩ := hgv
    subst har
    refine ⟨hg.hpos, hg.htail, hg.hchain, ?_⟩
    intro i
    show (if i = c then a.1 else p.heads i) < p.size
    split
    · exact getVecLoop_head_lt p.vectors p.size p.tail c hg.hpos _ _ _ _
        (hg.hheads c) ha
    · exact hg.hheads i

/-- Every reachable pool satisfies the structural invariant. -/
lemma reached_good (p : VectorPool) (hp : Reached p) : GoodPool p := by
  induction hp with
  | init c s hs => exact ⟨hs, hs, Chain.refl 0, fun _ => hs⟩
  | step_write p o es _ ih => exact good_write p o es ih
  | step_get p c _ ih => exact good_applyGet p c ih

/-! ### Termination of the `get_vector` loop on reachable states -/

/-- From any in-range position, iterating `nextF` wraps to `0` after at most
`(s - h) / 2 + 1` strictly increasing record steps. -/
lemma iterate_wrap (v : Nat → Nat) (s : Nat) (_hs : 0 < s) :
    ∀ m h, h < s → s - h ≤ m →
      ∃ j, 1 ≤ j ∧ 2 * j ≤ s - h + 2 ∧ (nextF v s)^[j] h = 0 := by
  intro m
  induction m with
  | zero => intro h hh hm; omega
  | succ m ih =>
    intro h hh hm
    by_cases hw : s ≤ h + 2 + get_lengthF v h
    · refine ⟨1, Nat.le_refl 1, by omega, ?_⟩
      simp only [Function.iterate_one, nextF]
      rw [if_pos hw]
    · have hstep : nextF v s h = h + 2 + get_lengthF v h := by
        simp only [nextF]
        rw [if_neg hw]
      have hlt : h + 2 + get_lengthF v h < s := by omega
      obtain ⟨j, hj1, hj2, hj3⟩ := ih (h + 2 + get_lengthF v h) hlt (by omega)
      refine ⟨j + 1, by omega, by omega, ?_⟩
      rw [Function.iterate_succ_apply, hstep]
      exact hj3

/-- A chain from `a` to `b` is an iteration of `nextF`, of length at most
`(b - a) / 2`. -/
lemma chain_iterate (v : Nat → Nat) (s a b : Nat) (h : Chain v s a b) :
    ∃ k, (nextF v s)^[k] a = b ∧ 2 * k ≤ b - a := by
  induction h with
  | refl a => exact ⟨0, rfl, by omega⟩
  | step a x y hn hlt hxy ih =>
    obtain ⟨k, hk1, hk2⟩ := ih
    obtain ⟨_, hxval⟩ := nextF_pos_elim v s a x hn hlt
    have hxy' : x ≤ y := chain_le v s x y hxy
    refine ⟨k + 1, ?_, by omega⟩
    rw [Function.iterate_succ_apply, hn]
    exact hk1

/-- On a good pool, every cursor position reaches the write cursor by whole
records within `s + 1` steps (at least one step is taken). -/
lemma reach_tail (v : Nat → Nat) (s tail : Nat) (hs : 0 < s) (htl : tail < s)
    (hch : Chain v s 0 tail) (h : Nat) (hh : h < s) :
    ∃ i, 1 ≤ i ∧ i ≤ s + 1 ∧ (nextF v s)^[i] h = tail := by
  obtain ⟨j, hj1, hj2, hj3⟩ := iterate_wrap v s hs s h hh (by omega)
  obtain ⟨k, hk1, hk2⟩ := chain_iterate v s 0 tail hch
  refine ⟨k + j, by omega, by omega, ?_⟩
  rw [Function.iterate_add_apply, hj3]
  exact hk1

/-- If the cursor's record walk passes through the write cursor within the
fuel bound, the `get_vector` loop completes (it either returns a record
earlier or exits at the write cursor). -/
lemma loop_terminates (v : Nat → Nat) (s tail owner : Nat) :
    ∀ i fuel h ae, (nextF v s)^[i + 1] h = tail → i + 1 < fuel →
      (getVecLoop v s tail owner fuel h ae).isSome = true := by
  intro i
  induction i with
  | zero =>
    intro fuel h ae hit hfu
    obtain ⟨f, rfl⟩ : ∃ f, fuel = f + 2 := ⟨fuel - 2, by omega⟩
    rw [Function.iterate_one] at hit
    rw [getVecLoop]
    split
    · rfl
    · dsimp only
      rw [hit]
      split
      · rw [getVecLoop]
        rw [if_pos ⟨rfl, by simp⟩]
        rfl
      · rfl
  | succ i ih =>
    intro fuel h ae hit hfu
    obtain ⟨f, rfl⟩ : ∃ f, fuel = f + 1 := ⟨fuel - 1, by omega⟩
    rw [getVecLoop]
    split
    · rfl
    · dsimp only
      split
      · refine ih f (nextF v s h) _ ?_ (by omega)
        rw [Function.iterate_succ_apply] at hit
        exact hit
      · rfl

/-! ### Claim C10 -/

/-- Claim C10: on every pool state produced by `reserve` followed by complete
producer-protocol writes (and `get_vector` calls), `get_vector` terminates for
every consumer `c`: the skip loop advances by whole records and completes —
returning a record or "none" — within the linear fuel bound `size + 3`
(at most one pass over the stored records plus the step re-entering from the
write cursor), never cycling forever. -/
theorem claim_C10 (p : VectorPool) (hp : Reached p) (c : Nat) :
    (get_vector p c).isSome = true := by
  have hg := reached_good p hp
  obtain ⟨i, hi1, hi2, hi3⟩ := reach_tail p.vectors p.size p.tail hg.hpos hg.htail hg.hchain
    (p.heads c) (hg.hheads c)
  obtain ⟨i', rfl⟩ : ∃ i', i = i' + 1 := ⟨i - 1, by omega⟩
  have hterm := loop_terminates p.vectors p.size p.tail c i' (p.size + 3)
    (p.heads c) (p.at_end c) hi3 (by omega)
  unfold get_vector
  cases hl : getVecLoop p.vectors p.size p.tail c (p.size + 3) (p.heads c) (p.at_end c) with
  | none => rw [hl] at hterm; simp at hterm
  | some r => rfl

/-- Witness for C10 at a concrete reachable state: after `reserve(2,10)` and
one complete write, `get_vector 0` completes. -/
theorem claim_C10_witness :
    (get_vector (write (reserve 2 10) 1 [5, 6]) 0).isSome = true :=
  claim_C10 (write (reserve 2 10) 1 [5, 6])
    (Reached.step_write (reserve 2 10) 1 [5, 6] (Reached.init 2 10 (by omega))) 0

/-! ### Claim C5 -/

/-- Claim C5: any completed `get_vector` loop run skips exactly the records
owned by the calling consumer: a returned record is the first one on the
cursor's record walk whose owner differs from the consumer (so the consumer
never receives a record it authored, even when its cursor passes over it);
the run returns "none" exactly when the cursor has reached the write cursor;
and the final at-end flag is set exactly when the final cursor equals the
write cursor. -/
theorem claim_C5 (v : Nat → Nat) (s tail owner fuel h : Nat) (ae : Bool)
    (h' : Nat) (ae' : Bool) (res : Option (Nat × List Nat))
    (heq : getVecLoop v s tail owner fuel h ae = some (h', ae', res)) :
    SkipSpec v s tail owner h h' ae' res := by
  induction fuel generalizing h ae with
  | zero => simp [getVecLoop] at heq
  | succ fuel ih =>
    rw [getVecLoop] at heq
    by_cases hguard : h = tail ∧ ae = true
    · rw [if_pos hguard] at heq
      simp only [Option.some.injEq, Prod.mk.injEq] at heq
      obtain ⟨e1, e2, e3⟩ := heq
      subst e1; subst e2; subst e3
      refine ⟨?_, fun _ => hguard.1, ?_⟩
      · intro n pay hres
        simp at hres
      · rw [hguard.2, hguard.1]
        simp
    · rw [if_neg hguard] at heq
      dsimp only at heq
      by_cases hself : owner = get_ownerF v h
      · rw [if_pos hself] at heq
        have ihx := ih (nextF v s h) (decide (nextF v s h = tail)) heq
        refine ⟨?_, ihx.2.1, ihx.2.2⟩
        intro n pay hres
        obtain ⟨k, hskip, hown, hn, hpay, hh'⟩ := ihx.1 n pay hres
        refine ⟨k + 1, ?_, ?_, ?_, ?_, ?_⟩
        · intro j hj
          match j with
          | 0 => simpa using hself.symm
          | Nat.succ j' =>
            rw [Function.iterate_succ_apply]
            exact hskip j' (by omega)
        · rw [Function.iterate_succ_apply]; exact hown
        · rw [Function.iterate_succ_apply]; exact hn
        · rw [Function.iterate_succ_apply]; exact hpay
        · rw [Function.iterate_succ_apply]; exact hh'
      · rw [if_neg hself] at heq
        simp only [Option.some.injEq, Prod.mk.injEq] at heq
        obtain ⟨e1, e2, e3⟩ := heq
        subst e1; subst e2; subst e3
        refine ⟨?_, ?_, ?_⟩
        · intro n pay hres
          simp only [Option.some.injEq, Prod.mk.injEq] at hres
          obtain ⟨en, epay⟩ := hres
          refine ⟨0, fun j hj => absurd hj (by omega), ?_, ?_, ?_, ?_⟩
          · simpa using fun hx => hself hx.symm
          · simpa using en.symm
          · rw [← epay, ← en]
            simp
          · simp
        · intro hres
          simp at hres
        · simp [decide_eq_true_iff]

/-- Witness for C5 at a concrete completed run: after one write by owner `1`
into the fresh pool, consumer `0`'s loop run from cursor `0` returns the
record and the skip specification holds of it. -/
theorem claim_C5_witness :
    SkipSpec (write (reserve 2 10) 1 [5, 6]).vectors 10 4 0 0 4 true (some (2, [5, 6])) :=
  claim_C5 (write (reserve 2 10) 1 [5, 6]).vectors 10 4 0 13 0 false 4 true
    (some (2, [5, 6])) (by rfl)

/-! ### Claim C4 -/

/-- Reading back `es.length` payload words that were laid down from `es`
reproduces `es`. -/
lemma readPayload_eq (v : Nat → Nat) (pos : Nat) (es : List Nat)
    (hv : ∀ i, i < es.length → v (pos + 2 + i) = es.getD i 0) :
    readPayload v pos es.length = es := by
  apply List.ext_getElem
  · simp [readPayload]
  · intro i h1 h2
    simp only [readPayload, List.getElem_map, List.getElem_range]
    rw [hv i h2]
    exact List.getD_eq_getElem es 0 h2

/-- Claim C4 (round trip): for every owner, every nonempty value list, and
every consumer `c ≠ owner` whose read cursor equals the write cursor, one
complete producer-protocol write followed by `get_vector c` with no
intervening writes returns a record of exactly that length with the same
elements in original order. -/
theorem claim_C4 (p : VectorPool) (owner : Nat) (es : List Nat) (c : Nat)
    (hc : c ≠ owner) (hnum : c < p.num_consumers) (hcur : p.heads c = p.tail)
    (_hlen : 1 ≤ es.length) :
    (get_vector (write p owner es) c).map (fun x => x.2) =
      some (some (es.length, es)) := by
  obtain ⟨hsize, _, _, hheads, hat_end, hown, hlen2, hpay, _⟩ := write_spec p owner es
  have hh : (write p owner es).heads c = p.tail := by
    rw [hheads]
    dsimp only
    rw [if_pos hnum, hcur]
    exact evict_not_moved _ _ _ _ _ (by omega)
  have hae : (write p owner es).at_end c = false := by
    rw [hat_end]
    dsimp only
    rw [if_pos hnum]
  unfold get_vector
  rw [hh, hae, hsize]
  rw [show p.size + 3 = (p.size + 2) + 1 from rfl, getVecLoop]
  rw [if_neg (by simp)]
  dsimp only
  rw [if_neg (by rw [get_ownerF, hown]; exact hc)]
  rw [show get_lengthF (write p owner es).vectors p.tail = es.length from hlen2]
  rw [readPayload_eq (write p owner es).vectors p.tail es hpay]
  rfl

/-- Witness for C4: on the fresh `reserve(2,10)` pool, a write of `[5,6]` by
owner `1` followed by `get_vector 0` returns `(2, [5,6])`. -/
theorem claim_C4_witness :
    (get_vector (write (reserve 2 10) 1 [5, 6]) 0).map (fun x => x.2) =
      some (some (2, [5, 6])) :=
  claim_C4 (reserve 2 10) 1 [5, 6] 0 (by omega) (by norm_num [reserve]) rfl (by simp)

/-! ### Claims C1, C2, C3 -/

/-- Counterexample to claim C1 as stated: after `reserve(2,10)` and a complete
write of payload length 6 the write cursor is 8; beginning the next record
(payload length 2) writes its header at position 8 — the write position is
not reset to 0 before the record is written — and the completed record's
payload words land at positions 10 and 11, at and past the buffer end
(size 10), so the record `[8, 12)` lies past the buffer end. -/
theorem claim_C1_cex :
    poolA.tail = 8 ∧
    (begin_add_vector poolA 1 2).vectors 8 = 1 ∧
    (begin_add_vector poolA 1 2).vectors 9 = 2 ∧
    (begin_add_vector poolA 1 2).tail = 10 ∧
    poolB.vectors 10 = 17 ∧
    poolB.vectors 11 = 18 ∧
    poolB.size = 10 ∧
    poolB.tail = 0 := by
  refine ⟨by decide, by decide, by decide, by decide, by decide, by decide, by decide, by decide⟩

/-- Claim C1 as amended: every record is written contiguously at the write
position current when `begin_add_vector` runs — header `(owner, len)` first,
then the payload — so no record is ever split across the buffer end; but the
record may extend past the buffer end into the slack the buffer reserves, and
the write position resets to `0` only in `end_add_vector`, after the record
is written, exactly when the record's end reaches or passes the buffer end. -/
theorem claim_C1 (p : VectorPool) (owner : Nat) (es : List Nat) :
    (write p owner es).vectors p.tail = owner ∧
    (write p owner es).vectors (p.tail + 1) = es.length ∧
    (∀ i, i < es.length → (write p owner es).vectors (p.tail + 2 + i) = es.getD i 0) ∧
    (write p owner es).tail =
      (if p.size ≤ p.tail + 2 + es.length then 0 else p.tail + 2 + es.length) := by
  obtain ⟨_, _, h3, _, _, h6, h7, h8, _⟩ := write_spec p owner es
  exact ⟨h6, h7, h8, h3⟩

/-- Witness for C1 at a concrete input: the record `[5,6]` written by owner 1
into the fresh pool sits at positions 0..3 and the tail advances to 4. -/
theorem claim_C1_witness :
    (write (reserve 2 10) 1 [5, 6]).vectors 2 = 5 ∧
    (write (reserve 2 10) 1 [5, 6]).tail = 4 := by
  have h := claim_C1 (reserve 2 10) 1 [5, 6]
  exact ⟨h.2.2.1 0 (by decide), h.2.2.2⟩

/-- Counterexample to claim C2 as stated: on the fresh `reserve(2,10)` pool,
`begin_add_vector 1 3` is about to occupy the span `[0, 5)`; consumer 0's
cursor is 0, equal to the tail and hence inside that span; but after the call
the cursor is still 0 — a cursor equal to the tail is not advanced (the
eviction condition `m_tail < m_heads[i]` is strict). -/
theorem claim_C2_cex :
    (reserve 2 10).tail = 0 ∧
    (begin_add_vector (reserve 2 10) 1 3).heads 0 = 0 ∧
    (0 : Nat) < 0 + 3 + 2 := by
  refine ⟨rfl, ?_, by omega⟩
  show evict (reserve 2 10).vectors (reserve 2 10).size (reserve 2 10).tail 5
    ((reserve 2 10).heads 0) = 0
  exact evict_not_moved _ _ _ _ _ (by decide)

/-- Claim C2 as amended: `begin_add_vector(owner, n)` clears every consumer's
at-tail flag, and every consumer whose cursor lies strictly inside the open
span `(tail, tail + n + 2)` is advanced (by whole records) out of that span;
a cursor exactly at the tail stays in place. -/
theorem claim_C2 (p : VectorPool) (owner n c : Nat) (hc : c < p.num_consumers) :
    (begin_add_vector p owner n).at_end c = false ∧
    ¬ (p.tail < (begin_add_vector p owner n).heads c ∧
        (begin_add_vector p owner n).heads c < p.tail + (n + 2)) ∧
    (p.heads c = p.tail → (begin_add_vector p owner n).heads c = p.tail) := by
  have eheads : (begin_add_vector p owner n).heads c =
      evict p.vectors p.size p.tail (n + 2) (p.heads c) := by
    show (if c < p.num_consumers then evict p.vectors p.size p.tail (n + 2) (p.heads c)
      else p.heads c) = _
    rw [if_pos hc]
  refine ⟨?_, ?_, ?_⟩
  · show (if c < p.num_consumers then false else p.at_end c) = false
    rw [if_pos hc]
  · rw [eheads]
    exact evict_not_in_span _ _ _ _ _
  · intro hcur
    rw [eheads, hcur]
    exact evict_not_moved _ _ _ _ _ (by omega)

/-- Witness for C2: on the fresh pool, consumer 0's flag is cleared by a
`begin_add_vector` and its cursor (at the tail) stays at the tail. -/
theorem claim_C2_witness :
    (begin_add_vector (reserve 2 10) 1 3).at_end 0 = false ∧
    ((reserve 2 10).heads 0 = (reserve 2 10).tail →
      (begin_add_vector (reserve 2 10) 1 3).heads 0 = (reserve 2 10).tail) := by
  have h := claim_C2 (reserve 2 10) 1 3 0 (by decide)
  exact ⟨h.1, h.2.2⟩

/-- Counterexample to claim C3 as stated: in Scenario C (`reserve(2,10)`, an
8-word record `[0,8)`, consumer 0's cursor at 0 inside `[0,8)`, then a second
record of payload length 2) the consumer's cursor is not force-advanced — it
is still 0 after the second write — and the consumer's next `get_vector`
does return the first record (length 6, elements `11..16`). -/
theorem claim_C3_cex :
    poolB.heads 0 = 0 ∧
    (get_vector poolB 0).map (fun x => x.2) = some (some (6, [11, 12, 13, 14, 15, 16])) := by
  have h1 : poolA.heads 0 = 0 := by
    show evict (reserve 2 10).vectors (reserve 2 10).size (reserve 2 10).tail 8
      ((reserve 2 10).heads 0) = 0
    exact evict_not_moved _ _ _ _ _ (by decide)
  have h2 : poolB.heads 0 = 0 := by
    have e : poolB.heads 0 = evict poolA.vectors poolA.size poolA.tail 4 (poolA.heads 0) := by
      show (if 0 < poolA.num_consumers then evict poolA.vectors poolA.size poolA.tail 4
        (poolA.heads 0) else poolA.heads 0) = _
      rw [if_pos (by decide)]
    rw [e, h1]
    exact evict_not_moved _ _ _ _ _ (by decide)
  have hae : poolB.at_end 0 = false := by decide
  have hkey : getVecLoop poolB.vectors poolB.size poolB.tail 0 (poolB.size + 3) 0 false =
      some (8, false, some (6, [11, 12, 13, 14, 15, 16])) := by decide
  refine ⟨h2, ?_⟩
  unfold get_vector
  rw [h2, hae, hkey]
  rfl

/-- Claim C3 as amended: in Scenario C the second record is written at
`[8, 12)`, extending past the buffer end into slack, and the write cursor
resets to 0 only afterwards; the consumer's cursor (at 0, inside `[0,8)`) is
not advanced by the second write, and its next `get_vector` returns the
first record intact — the record is lost only once a further write starting
at 0 overwrites it. -/
theorem claim_C3 :
    poolA.tail = 8 ∧
    poolB.vectors 8 = 1 ∧
    poolB.vectors 9 = 2 ∧
    poolB.vectors 10 = 17 ∧
    poolB.vectors 11 = 18 ∧
    poolB.tail = 0 ∧
    poolB.heads 0 = 0 ∧
    (get_vector poolB 0).map (fun x => x.2) = some (some (6, [11, 12, 13, 14, 15, 16])) ∧
    (get_vector poolB 0).map (fun x => x.1.heads 0) = some 8 := by
  have h1 : poolA.heads 0 = 0 := by
    show evict (reserve 2 10).vectors (reserve 2 10).size (reserve 2 10).tail 8
      ((reserve 2 10).heads 0) = 0
    exact evict_not_moved _ _ _ _ _ (by decide)
  have h2 : poolB.heads 0 = 0 := by
    have e : poolB.heads 0 = evict poolA.vectors poolA.size poolA.tail 4 (poolA.heads 0) := by
      show (if 0 < poolA.num_consumers then evict poolA.vectors poolA.size poolA.tail 4
        (poolA.heads 0) else poolA.heads 0) = _
      rw [if_pos (by decide)]
    rw [e, h1]
    exact evict_not_moved _ _ _ _ _ (by decide)
  have hae : poolB.at_end 0 = false := by decide
  have hkey : getVecLoop poolB.vectors poolB.size poolB.tail 0 (poolB.size + 3) 0 false =
      some (8, false, some (6, [11, 12, 13, 14, 15, 16])) := by decide
  refine ⟨by decide, by decide, by decide, by decide, by decide, by decide, h2, ?_, ?_⟩
  · unfold get_vector
    rw [h2, hae, hkey]
    rfl
  · unfold get_vector
    rw [h2, hae, hkey]
    rfl

/-! ### Claim C6 -/

/-- Folding a caller's literals into the log appends (in order) exactly a
sublist of literals from the input none of which was already present. -/
lemma exchange_fold_append (lin : List Nat) :
    ∀ st : ExchangeState,
      ∃ ap, (lin.foldl exchange_push st).m_units = st.m_units ++ ap ∧
        (∀ x, x ∈ ap → x ∈ lin ∧ st.m_unit_set.contains x = false) ∧
        (∀ x, x ∈ lin → st.m_unit_set.contains x = false → x ∈ ap) := by
  induction lin with
  | nil =>
    exact fun st => ⟨[], by simp, fun x hx => absurd hx (List.not_mem_nil x),
      fun x hx _ => absurd hx (List.not_mem_nil x)⟩
  | cons a t ih =>
    intro st
    simp only [List.foldl_cons]
    by_cases hc : st.m_unit_set.contains a
    · have hpush : exchange_push st a = st := by
        unfold exchange_push
        rw [if_pos hc]
      rw [hpush]
      obtain ⟨ap, h1, h2, h3⟩ := ih st
      refine ⟨ap, h1, fun x hx => ⟨List.mem_cons_of_mem a (h2 x hx).1, (h2 x hx).2⟩, ?_⟩
      intro x hx hfresh
      rcases List.mem_cons.mp hx with rfl | hx'
      · rw [hc] at hfresh
        exact Bool.noConfusion hfresh
      · exact h3 x hx' hfresh
    · have hpush : exchange_push st a =
          ⟨st.m_units ++ [a], a :: st.m_unit_set⟩ := by
        unfold exchange_push
        rw [if_neg hc]
      rw [hpush]
      obtain ⟨ap, h1, h2, h3⟩ := ih ⟨st.m_units ++ [a], a :: st.m_unit_set⟩
      refine ⟨a :: ap, by simpa using h1, ?_, ?_⟩
      · intro x hx
        rcases List.mem_cons.mp hx with rfl | hx'
        · exact ⟨List.mem_cons_self x t, by simpa using hc⟩
        · obtain ⟨hm, hs⟩ := h2 x hx'
          simp only [List.contains_cons, Bool.or_eq_false_iff] at hs
          exact ⟨List.mem_cons_of_mem a hm, hs.2⟩
      · intro x hx hfresh
        rcases List.mem_cons.mp hx with rfl | hx'
        · exact List.mem_cons_self x ap
        · by_cases hxa : x = a
          · subst hxa
            exact List.mem_cons_self x ap
          · have hfresh' :
                (⟨st.m_units ++ [a], a :: st.m_unit_set⟩ :
                  ExchangeState).m_unit_set.contains x = false := by
              simp only [List.contains_cons, Bool.or_eq_false_iff, beq_eq_false_iff_ne]
              exact ⟨hxa, hfresh⟩
            exact List.mem_cons_of_mem a (h3 x hx' hfresh')

/-- The coupling invariant of the unit log: the ordered log has no duplicates
and the dedup set holds exactly the logged identifiers. -/
def ExInv (st : ExchangeState) : Prop :=
  st.m_units.Nodup ∧ ∀ x, x ∈ st.m_units ↔ st.m_unit_set.contains x = true

lemma exchange_push_inv (st : ExchangeState) (a : Nat) (h : ExInv st) :
    ExInv (exchange_push st a) := by
  by_cases hc : st.m_unit_set.contains a
  · unfold exchange_push
    rw [if_pos hc]
    exact h
  · unfold exchange_push
    rw [if_neg hc]
    constructor
    · simp only [List.nodup_append, List.nodup_cons, List.nodup_nil]
      refine ⟨h.1, by simp, ?_⟩
      intro x hx hx'
      have : x = a := by simpa using hx'
      subst this
      exact hc ((h.2 x).mp hx)
    · intro x
      simp only [List.mem_append, List.mem_singleton, List.contains_cons,
        Bool.or_eq_true, beq_iff_eq]
      rw [h.2 x]
      tauto

lemma exchange_fold_inv (lin : List Nat) :
    ∀ st : ExchangeState, ExInv st → ExInv (lin.foldl exchange_push st) := by
  induction lin with
  | nil => exact fun st h => h
  | cons a t ih =>
    intro st h
    simp only [List.foldl_cons]
    exact ih (exchange_push st a) (exchange_push_inv st a h)

lemma exchange_run_inv (calls : List (List Nat × Nat)) : ExInv (exchange_run calls) := by
  have base : ExInv ⟨[], []⟩ := ⟨List.nodup_nil, by simp⟩
  unfold exchange_run
  generalize hst : (⟨[], []⟩ : ExchangeState) = st at base
  clear hst
  induction calls generalizing st with
  | nil => exact base
  | cons c t ih =>
    simp only [List.foldl_cons]
    exact ih _ (exchange_fold_inv c.1 st base)

/-- Claim C6: an executed `exchange(caller, in, limit)` first hands out
exactly the global-log literals at positions `≥ limit` in log order, then
appends to the global log exactly the literals of `in` whose identifier is
not already present — every appended literal is a not-previously-present
member of `in`, and every literal of `in` whose identifier is not already
present is appended — and finally sets the limit to the new global length;
the global log never holds a literal id twice over any sequence of calls from
the empty log; and Scenario B holds concretely: from the empty log,
`exchange(caller 0, [u1,u2], limit 0)` returns nothing and sets the limit to
2, and a following `exchange(caller 1, [], limit 0)` returns `[u1, u2]`. -/
theorem claim_C6 :
    (∀ (st : ExchangeState) (lin : List Nat) (limit : Nat),
      (exchange false st lin limit).2.2 = st.m_units.drop limit ∧
      (exchange false st lin limit).2.1 = (exchange false st lin limit).1.m_units.length ∧
      ∃ ap, (exchange false st lin limit).1.m_units = st.m_units ++ ap ∧
        (∀ x, x ∈ ap → x ∈ lin ∧ st.m_unit_set.contains x = false) ∧
        (∀ x, x ∈ lin → st.m_unit_set.contains x = false → x ∈ ap)) ∧
    (∀ calls, (exchange_run calls).m_units.Nodup) ∧
    ((exchange false ⟨[], []⟩ [11, 12] 0).2.2 = [] ∧
      (exchange false ⟨[], []⟩ [11, 12] 0).2.1 = 2 ∧
      (exchange false (exchange false ⟨[], []⟩ [11, 12] 0).1 [] 0).2.2 = [11, 12]) := by
  refine ⟨?_, ?_, by decide, by decide, by decide⟩
  · intro st lin limit
    exact ⟨rfl, rfl, exchange_fold_append lin st⟩
  · intro calls
    exact (exchange_run_inv calls).1

/-- Witness for C6: two callers both submitting literal `7` (one of them
twice) leave a duplicate-free global log. -/
theorem claim_C6_witness :
    (exchange_run [([7, 7, 8], 0), ([7, 9], 0)]).m_units.Nodup :=
  claim_C6.2.1 [([7, 7, 8], 0), ([7, 9], 0)]

/-! ### Claim C7 -/

/-- Claim C7: the share heuristic accepts a clause exactly when
`(size ≤ 40 and glue ≤ 8) or glue ≤ 2`, and in particular on the four
boundary cases `(40,8) ↦ true`, `(41,8) ↦ false`, `(1000,2) ↦ true`,
`(41,3) ↦ false`. -/
theorem claim_C7 :
    (∀ c : Clause, enable_add c = true ↔ ((c.size ≤ 40 ∧ c.glue ≤ 8) ∨ c.glue ≤ 2)) ∧
    enable_add ⟨40, 8⟩ = true ∧
    enable_add ⟨41, 8⟩ = false ∧
    enable_add ⟨1000, 2⟩ = true ∧
    enable_add ⟨41, 3⟩ = false := by
  refine ⟨?_, by decide, by decide, by decide, by decide⟩
  intro c
  simp [enable_add]

/-! ### Claims C8 and C9 -/

/-- Full characterization of the clone-allocation loop: it produces `r` clones
with consecutive ids starting at `i`, consuming one random value per clone;
a clone's phase is `"random"` exactly when the designated absolute index
`1 + (k+1)/2` has been passed within this loop run, and otherwise it is the
incoming phase; the master's params leave the loop holding the last assigned
seed. -/
lemma initClones_spec (rng : Nat → Nat) (k : Nat) :
    ∀ (r i : Nat) (ps : Params) (idx : Nat),
      (initClones rng k r i ps idx).2.2.length = r ∧
      (initClones rng k r i ps idx).2.1 = idx + r ∧
      (∀ j, j < r → ((initClones rng k r i ps idx).2.2.getD j ⟨⟨none, none⟩, 0⟩).id = i + j) ∧
      (∀ j, j < r →
        ((initClones rng k r i ps idx).2.2.getD j ⟨⟨none, none⟩, 0⟩).params.phase =
          (if i ≤ 1 + (k + 1) / 2 ∧ 1 + (k + 1) / 2 ≤ i + j then some "random" else ps.phase)) ∧
      (∀ j, j < r →
        ((initClones rng k r i ps idx).2.2.getD j ⟨⟨none, none⟩, 0⟩).params.random_seed =
          some (rng (idx + j))) ∧
      ((initClones rng k r i ps idx).1.random_seed =
        (if r = 0 then ps.random_seed else some (rng (idx + r - 1)))) := by
  intro r
  induction r with
  | zero =>
    intro i ps idx
    refine ⟨rfl, rfl, ?_, ?_, ?_, rfl⟩ <;> intro j hj <;> omega
  | succ r ih =>
    intro i ps idx
    have hps2phase :
        (if i = 1 + (k + 1) / 2 then
            { phase := some "random", random_seed := some (rng idx) }
          else { ps with random_seed := some (rng idx) } : Params).phase =
          (if i = 1 + (k + 1) / 2 then some "random" else ps.phase) := by
      split <;> rfl
    have hps2seed :
        (if i = 1 + (k + 1) / 2 then
            { phase := some "random", random_seed := some (rng idx) }
          else { ps with random_seed := some (rng idx) } : Params).random_seed =
          some (rng idx) := by
      split <;> rfl
    simp only [initClones]
    obtain ⟨g1, g2, g3, g4, g5, g6⟩ := ih (i + 1)
      (if i = 1 + (k + 1) / 2 then
          { phase := some "random", random_seed := some (rng idx) }
        else { ps with random_seed := some (rng idx) }) (idx + 1)
    refine ⟨by simpa using g1, by rw [g2]; omega, ?_, ?_, ?_, ?_⟩
    · intro j hj
      match j with
      | 0 => simp
      | Nat.succ j' =>
        show ((initClones rng k r (i + 1) _ (idx + 1)).2.2.getD j' ⟨⟨none, none⟩, 0⟩).id =
          i + (j' + 1)
        rw [g3 j' (by omega)]
        omega
    · intro j hj
      match j with
      | 0 =>
        show (if i = 1 + (k + 1) / 2 then
            { phase := some "random", random_seed := some (rng idx) }
          else { ps with random_seed := some (rng idx) } : Params).phase = _
        rw [hps2phase]
        by_cases hi : i = 1 + (k + 1) / 2
        · rw [if_pos hi, if_pos (by omega)]
        · rw [if_neg hi, if_neg (by omega)]
      | Nat.succ j' =>
        have hg := g4 j' (by omega)
        show ((initClones rng k r (i + 1) _ (idx + 1)).2.2.getD j'
          ⟨⟨none, none⟩, 0⟩).params.phase = _
        rw [hg, hps2phase]
        by_cases hi : i = 1 + (k + 1) / 2
        · rw [if_neg (by omega), if_pos hi, if_pos (by omega)]
        · by_cases hcond : i + 1 ≤ 1 + (k + 1) / 2 ∧ 1 + (k + 1) / 2 ≤ i + 1 + j'
          · rw [if_pos hcond, if_pos (by omega)]
          · rw [if_neg hcond, if_neg hi, if_neg (by omega)]
    · intro j hj
      match j with
      | 0 =>
        show (if i = 1 + (k + 1) / 2 then
            { phase := some "random", random_seed := some (rng idx) }
          else { ps with random_seed := some (rng idx) } : Params).random_seed = _
        rw [hps2seed]
        rfl
      | Nat.succ j' =>
        have := g5 j' (by omega)
        show ((initClones rng k r (i + 1) _ (idx + 1)).2.2.getD j'
          ⟨⟨none, none⟩, 0⟩).params.random_seed = _
        rw [this]
        congr 2
        omega
    · rw [g6]
      rw [if_neg (Nat.succ_ne_zero r)]
      by_cases hr : r = 0
      · subst hr
        rw [if_pos rfl, hps2seed]
        have harith : idx + (0 + 1) - 1 = idx := by omega
        rw [harith]
      · rw [if_neg hr]
        have harith : idx + 1 + r - 1 = idx + (r + 1) - 1 := by omega
        rw [harith]

/-- Counterexample to claim C8 as stated: with `k = 6` the claim designates
clone `1 + 6/2 = 4` as the only diversified clone, yet clone 5 is also
configured with the `"random"` phase (the master's phase, not copied, is
`none`): the phase symbol set at the designated iteration persists for all
later clones.  With `k = 3` the claim designates clone `1 + 3/2 = 2`, yet
clone 2 copies the master's phase (`none`): the code's designated index is
`1 + (k+1)/2 = 3`, which for `k = 3` is out of range, so no clone is
diversified. -/
theorem claim_C8_cex :
    (((init_solvers (fun n => n + 100) ⟨⟨none, none⟩, 0, none⟩ 6).2.getD 5
        ⟨⟨none, none⟩, 0⟩).params.phase = some "random" ∧
      (5 : Nat) ≠ 1 + 6 / 2 ∧
      (⟨⟨none, none⟩, 0, none⟩ : Master).params.phase = none) ∧
    (((init_solvers (fun n => n + 100) ⟨⟨none, none⟩, 0, none⟩ 3).2.getD 2
        ⟨⟨none, none⟩, 0⟩).params.phase = none ∧
      (2 : Nat) = 1 + 3 / 2) := by
  exact ⟨⟨rfl, by omega, rfl⟩, ⟨rfl, by omega⟩⟩

/-- Claim C8 as amended: `init_solvers(master, k)` creates `k` clones with
ids `0 .. k-1` and registers the master as participant `k` (`k+1` in total);
the diversified (`"random"`) search-phase policy is given to every clone with
index `≥ 1 + (k+1)/2` — the designated index uses `num_threads = k+1`, and
once set the phase persists for the remaining clones — while every clone
below that index copies the master's phase. -/
theorem claim_C8 (rng : Nat → Nat) (m : Master) (k : Nat) :
    (init_solvers rng m k).2.length = k ∧
    (init_solvers rng m k).1.par_id = some k ∧
    (∀ i, i < k → ((init_solvers rng m k).2.getD i ⟨⟨none, none⟩, 0⟩).id = i) ∧
    (∀ i, i < k → ((init_solvers rng m k).2.getD i ⟨⟨none, none⟩, 0⟩).params.phase =
      (if 1 + (k + 1) / 2 ≤ i then some "random" else m.params.phase)) := by
  obtain ⟨h1, _, h3, h4, _, _⟩ := initClones_spec rng k k 0 m.params m.rngIdx
  refine ⟨h1, rfl, ?_, ?_⟩
  · intro i hi
    simpa using h3 i hi
  · intro i hi
    have hthis := h4 i hi
    rw [show (0 : Nat) + i = i by omega] at hthis
    show ((initClones rng k k 0 m.params m.rngIdx).2.2.getD i
      ⟨⟨none, none⟩, 0⟩).params.phase = _
    rw [hthis]
    by_cases hcond : 1 + (k + 1) / 2 ≤ i
    · rw [if_pos ⟨by omega, hcond⟩, if_pos hcond]
    · rw [if_neg (by omega), if_neg hcond]

/-- Witness for C8: with `k = 6`, clone 5 (index `≥ 1 + 7/2 = 4`) carries the
`"random"` phase. -/
theorem claim_C8_witness :
    ((init_solvers (fun n => n) ⟨⟨some "caching", none⟩, 0, none⟩ 6).2.getD 5
      ⟨⟨none, none⟩, 0⟩).params.phase = some "random" := by
  have h := (claim_C8 (fun n => n) ⟨⟨some "caching", none⟩, 0, none⟩ 6).2.2.2 5 (by omega)
  rw [h, if_pos (by omega)]

/-- Counterexample to claim C9 as stated: the claim requires the random-seed
option to be restored to its pre-call value, but after
`init_solvers` with one clone and rng constantly 5, the master's random-seed
option holds 5, not its pre-call value 0: only the phase symbol is restored. -/
theorem claim_C9_cex :
    (init_solvers (fun _ => 5) ⟨⟨none, some 0⟩, 0, none⟩ 1).1.params.random_seed = some 5 ∧
    (⟨⟨none, some 0⟩, 0, none⟩ : Master).params.random_seed = some 0 ∧
    (5 : Nat) ≠ 0 := by
  exact ⟨rfl, rfl, by omega⟩

/-- Claim C9 as amended: when `init_solvers` returns, the master's
search-phase option holds its pre-call effective value (the saved
`get_sym("phase", "caching")` result is written back, so the effective phase
is unchanged), but the random-seed option is not restored: for `k ≥ 1` it is
left holding the seed assigned to the last clone, and only for `k = 0` is it
unchanged. -/
theorem claim_C9 (rng : Nat → Nat) (m : Master) (k : Nat) :
    (init_solvers rng m k).1.params.phase = some (m.params.phase.getD "caching") ∧
    (init_solvers rng m k).1.params.phase.getD "caching" = m.params.phase.getD "caching" ∧
    (k = 0 → (init_solvers rng m k).1.params.random_seed = m.params.random_seed) ∧
    (0 < k → (init_solvers rng m k).1.params.random_seed = some (rng (m.rngIdx + k - 1))) := by
  obtain ⟨_, _, _, _, _, h6⟩ := initClones_spec rng k k 0 m.params m.rngIdx
  refine ⟨rfl, rfl, ?_, ?_⟩
  · intro hk
    subst hk
    show (initClones rng 0 0 0 m.params m.rngIdx).1.random_seed = m.params.random_seed
    rw [h6, if_pos rfl]
  · intro hk
    show (initClones rng k k 0 m.params m.rngIdx).1.random_seed = some (rng (m.rngIdx + k - 1))
    rw [h6, if_neg (by omega)]

/-- Witness for C9: with two clones and rng `n ↦ n + 7` starting at stream
position 4, the master ends with random-seed `12 = (4 + 2 - 1) + 7` (the last
clone's seed) while its phase is back to the saved `"caching"`. -/
theorem claim_C9_witness :
    (init_solvers (fun n => n + 7) ⟨⟨some "caching", some 3⟩, 4, none⟩ 2).1.params.random_seed
        = some 12 ∧
    (init_solvers (fun n => n + 7) ⟨⟨some "caching", some 3⟩, 4, none⟩ 2).1.params.phase
        = some "caching" := by
  have h := claim_C9 (fun n => n + 7) ⟨⟨some "caching", some 3⟩, 4, none⟩ 2
  exact ⟨h.2.2.2 (by omega), h.1⟩

end SatParallel
